import Mathlib

/-!
# Verification of the halo-exchange / Rule-30 cellular automaton core

Shallow embedding of the 1-D domain-decomposition pattern of the repository:
the Rule-30 cellular automaton of `ex3-mpi/mpi-rule30.c` (functions `step`,
`init_domain`, `dump_state` and the `main` loop) together with the balanced
partition computation of `ex2-mpi/mpi-bbox.c` and `ex3-mpi/mpi-circles.c`.

Cells are C `signed char` values (`cell_t`), embedded as `Int`; C truthiness
(`x` is true iff nonzero) is made explicit via `cBool`.  Buffers are
`List Int`, with the C arrays' index arithmetic kept verbatim.
-/

namespace HPC

/-- Number of ghost cells on each side (source: `const int HALO = 1`). -/
def HALO : Nat := 1

/-- C truthiness of a `cell_t` value: nonzero means true. -/
def cBool (x : Int) : Bool := x != 0

/-- The C value of a boolean expression: `1` for true, `0` for false. -/
def cOf (b : Bool) : Int := if b then 1 else 0

/-- The 4-term sum-of-products the body of `step` assigns to `next[i]`,
with the source's own variable naming: `east = cur[i-1]`, `center = cur[i]`,
`west = cur[i+1]`. -/
def rule30expr (east center west : Int) : Int :=
  cOf ((cBool east && !cBool center && !cBool west) ||
       (!cBool east && !cBool center && cBool west) ||
       (!cBool east && cBool center && !cBool west) ||
       (!cBool east && cBool center && cBool west))

/-- The loop `for (i=HALO; i<ext_n-HALO; i++) next[i] = ...` of `step`,
with the remaining iteration count made explicit as `fuel`. -/
def stepLoop (cur : List Int) : List Int → Nat → Nat → List Int
  | next, _, 0 => next
  | next, i, fuel+1 =>
      stepLoop cur
        (next.set i (rule30expr (cur.getD (i-1) 0) (cur.getD i 0) (cur.getD (i+1) 0)))
        (i+1) fuel

/-- `step(cur, next, ext_n)` of `mpi-rule30.c`: computes the next state of
the CA into the interior of `next`; `ext_n` (the buffer length, cells plus
ghost cells) is recovered as `cur.length`.  The loop runs for indices
`HALO ≤ i < ext_n - HALO`, i.e. `ext_n - 2*HALO` iterations. -/
def step (cur next : List Int) : List Int :=
  stepLoop cur next HALO (cur.length - 2*HALO)

/-- `init_domain(cur, ext_n)`: all cells 0, except cell `ext_n/2` set to 1. -/
def init_domain (ext_n : Nat) : List Int :=
  (List.replicate ext_n (0:Int)).set (ext_n / 2) 1

/-- `dump_state(out, cur, ext_n)` prints exactly the cells
`cur[HALO] .. cur[ext_n-HALO-1]`: the interior of the buffer, ghost cells
excluded.  This list of cells is one snapshot row. -/
def dump_state (cur : List Int) : List Int :=
  (cur.drop HALO).take (cur.length - 2*HALO)

/-- The W = 1 halo exchange of `main` (`mpi-rule30.c` lines 226-229):
`cur[0] = cur[ext_width-2*HALO]; cur[ext_width-HALO] = cur[HALO];`,
performed sequentially in that order. -/
def wrap (cur : List Int) : List Int :=
  let e := cur.length
  let c1 := cur.set 0 (cur.getD (e - 2*HALO) 0)
  c1.set (e - HALO) (c1.getD HALO 0)

/-- One iteration of the `main` loop after the snapshot dump: halo exchange,
`step(cur, next, ext_width)`, then the `cur`/`next` swap.  The state is the
pair (cur, next). -/
def generation (st : List Int × List Int) : List Int × List Int :=
  (step (wrap st.1) st.2, wrap st.1)

/-- The `main` loop `for (s=0; s<steps; s++)`: each iteration dumps the
current state (snapshot-before-step) and then advances one generation.
Returns the list of snapshots, in order. -/
def runSnaps : List Int × List Int → Nat → List (List Int)
  | _, 0 => []
  | st, g+1 => dump_state st.1 :: runSnaps (generation st) g

/-- The init-phase check and run of `main`: `if (width % comm_sz) MPI_Abort`
comes before the output file is opened, before `cur`/`next` are allocated,
before `init_domain` and before the generation loop; on success the buffers
(width plus `2*HALO` ghost cells) are allocated, the domain initialized and
`G` generations run. -/
def runMain (N W G : Nat) : Except String (List (List Int)) :=
  if N % W ≠ 0 then Except.error "InvalidPartition"
  else
    Except.ok (runSnaps (init_domain (N + 2*HALO), List.replicate (N + 2*HALO) 0) G)

/-- The mathematical one-generation update of the global automaton row with
periodic (toroidal) boundaries: cell `t` is updated from its cyclic
west/center/east neighborhood by the `step` rule. -/
def globalGen (g : List Int) : List Int :=
  (List.range g.length).map (fun t =>
    rule30expr (g.getD ((t + g.length - 1) % g.length) 0) (g.getD t 0)
      (g.getD ((t + 1) % g.length) 0))

/-- Block start of the balanced partition (source: `mpi-bbox.c`
`const int start = N * i / comm_sz`, same formula in `mpi-circles.c`). -/
def pstart (N W i : Nat) : Nat := N * i / W

/-- Block end of the balanced partition (source: `mpi-bbox.c`
`const int end = N * (i + 1) / comm_sz`). -/
def pend (N W i : Nat) : Nat := N * (i+1) / W

/-- Block size, `end - start`. -/
def psize (N W i : Nat) : Nat := pend N W i - pstart N W i

/-- The effect of the call `step(cur, next, ext_n)` on the pair of buffers:
the first buffer is the `const cell_t *cur` argument, which the call leaves
unchanged; the second is `next` after the interior writes. -/
def stepCall (st : List Int × List Int) : List Int × List Int :=
  (st.1, step st.1 st.2)

/-- A buffer whose cells are all Boolean-valued (0 or 1). -/
def Bool01 (b : List Int) : Prop := ∀ x ∈ b, x = 0 ∨ x = 1

/-- Modelled from the spec: `distribute` (§4.5) — the scatter phase left as a
`MPI_Scatter` TODO in `mpi-rule30.c` (realized for ghost-free buffers by the
`MPI_Scatterv` of `mpi-bbox.c` with `displs[i] = start`, `sendcounts[i] =
size`).  For each worker `i`, the cells `global[start_i .. end_i)` are copied
into the interior of a freshly sized local buffer; the ghost slot on each
side is initialized to the zero sentinel. -/
def distribute (g : List Int) (W : Nat) : List (List Int) :=
  (List.range W).map (fun i =>
    (0:Int) :: ((g.drop (pstart g.length W i)).take (psize g.length W i) ++ [(0:Int)]))

/-- Modelled from the spec: `gather` (§4.5) — the gather phase left as a
`MPI_Gather` TODO in `mpi-rule30.c`.  Concatenates the interior cells
(ghosts excluded) of the workers' buffers in worker-index order. -/
def gather (bufs : List (List Int)) : List Int :=
  (bufs.map dump_state).flatten

/-- Modelled from the spec: `exchangeHalos` (§4.3) — the two `MPI_Sendrecv`
operations left as TODOs in `mpi-rule30.c`.  On the ring, worker `i`'s left
ghost slot receives the rightmost interior cell of worker `(i-1+W) mod W`,
and its right ghost slot receives the leftmost interior cell of worker
`(i+1) mod W`. -/
def exchangeHalos (bufs : List (List Int)) : List (List Int) :=
  (List.range bufs.length).map (fun i =>
    let b := bufs.getD i []
    let left := bufs.getD ((i + bufs.length - 1) % bufs.length) []
    let right := bufs.getD ((i + 1) % bufs.length) []
    (b.set 0 (left.getD (left.length - 2*HALO) 0)).set
      (b.length - HALO) (right.getD HALO 0))

/-- Modelled from the spec: one distributed generation (§4.6) — scatter the
global row, exchange halos on the ring, let every worker run `step` on its
local buffer (into a fresh local `next`), and gather the interiors back. -/
def distributedGen (g : List Int) (W : Nat) : List Int :=
  gather ((exchangeHalos (distribute g W)).map
    (fun b => step b (List.replicate b.length 0)))

end HPC

namespace HPC

/-! ## Helper lemmas about `stepLoop` -/

theorem stepLoop_length (cur : List Int) :
    ∀ fuel next i, (stepLoop cur next i fuel).length = next.length := by
  intro fuel
  induction fuel with
  | zero => intro next i; rfl
  | succ f ih =>
      intro next i
      rw [stepLoop, ih]
      simp

theorem stepLoop_getElem?_frame (cur : List Int) :
    ∀ fuel next i j, (j < i ∨ i + fuel ≤ j) →
      (stepLoop cur next i fuel)[j]? = next[j]? := by
  intro fuel
  induction fuel with
  | zero => intro next i j _; rfl
  | succ f ih =>
      intro next i j hj
      rw [stepLoop, ih]
      · exact List.getElem?_set_ne (by omega)
      · omega

theorem stepLoop_getElem?_written (cur : List Int) :
    ∀ fuel next i j, i ≤ j → j < i + fuel → j < next.length →
      (stepLoop cur next i fuel)[j]? =
        some (rule30expr (cur.getD (j-1) 0) (cur.getD j 0) (cur.getD (j+1) 0)) := by
  intro fuel
  induction fuel with
  | zero => intro next i j h1 h2 _; omega
  | succ f ih =>
      intro next i j h1 h2 h3
      rw [stepLoop]
      rcases Nat.eq_or_lt_of_le h1 with rfl | hlt
      · rw [stepLoop_getElem?_frame cur f _ _ _ (Or.inl (Nat.lt_succ_self _))]
        exact List.getElem?_set_self h3
      · exact ih _ _ _ hlt (by omega) (by simpa using h3)

theorem step_length (cur next : List Int) : (step cur next).length = next.length :=
  stepLoop_length cur _ next HALO

theorem step_getElem?_interior (cur next : List Int) (h : next.length = cur.length)
    (i : Nat) (h1 : HALO ≤ i) (h2 : i + HALO < cur.length) :
    (step cur next)[i]? =
      some (rule30expr (cur.getD (i-1) 0) (cur.getD i 0) (cur.getD (i+1) 0)) := by
  unfold step
  exact stepLoop_getElem?_written cur _ next HALO i h1 (by unfold HALO at *; omega)
    (by omega)

theorem step_getD_interior (cur next : List Int) (h : next.length = cur.length)
    (i : Nat) (h1 : HALO ≤ i) (h2 : i + HALO < cur.length) :
    (step cur next).getD i 0 =
      rule30expr (cur.getD (i-1) 0) (cur.getD i 0) (cur.getD (i+1) 0) := by
  rw [List.getD_eq_getElem?_getD, step_getElem?_interior cur next h i h1 h2]
  rfl

/-- The 4-term sum-of-products of `step` is exactly `east XOR (center OR west)`
on C truthiness, for arbitrary `cell_t` arguments (`east` stands for
`cur[i-1]`, `west` for `cur[i+1]`, as in the source). -/
theorem rule30expr_eq_xor_or (east center west : Int) :
    rule30expr east center west = cOf (cBool east ^^ (cBool center || cBool west)) := by
  unfold rule30expr
  cases cBool east <;> cases cBool center <;> cases cBool west <;> rfl

/-- C1: For every local buffer `cur` of 0/1 cells (ghost cells included) and
every interior index `i` (`HALO ≤ i ≤ local_size`, i.e. `i + HALO < ext_n`),
the stencil step writes `next[i] = west XOR (center OR east)` where
`west = cur[i-1]`, `center = cur[i]`, `east = cur[i+1]`; moreover the 4-term
sum-of-products of the code's `step()` agrees with the Rule-30 formula on all
8 Boolean neighborhoods. -/
theorem C1_step_is_rule30 :
    (∀ (cur next : List Int), (∀ x ∈ cur, x = 0 ∨ x = 1) →
      next.length = cur.length →
      ∀ i, HALO ≤ i → i + HALO < cur.length →
        (step cur next).getD i 0 =
          cOf (cBool (cur.getD (i-1) 0) ^^
               (cBool (cur.getD i 0) || cBool (cur.getD (i+1) 0)))) ∧
    (∀ w c e : Bool, rule30expr (cOf w) (cOf c) (cOf e) = cOf (w ^^ (c || e))) := by
  constructor
  · intro cur next _ hlen i h1 h2
    rw [step_getD_interior cur next hlen i h1 h2, rule30expr_eq_xor_or]
  · intro w c e
    cases w <;> cases c <;> cases e <;> rfl

/-- Witness for C1 at a concrete input: buffer `[0,1,0,1,0]` (0/1 cells),
interior index 2. -/
theorem C1_step_is_rule30_witness :
    (step [0,1,0,1,0] [0,0,0,0,0]).getD 2 0 =
      cOf (cBool (([0,1,0,1,0] : List Int).getD 1 0) ^^
           (cBool (([0,1,0,1,0] : List Int).getD 2 0) ||
            cBool (([0,1,0,1,0] : List Int).getD 3 0))) :=
  C1_step_is_rule30.1 [0,1,0,1,0] [0,0,0,0,0] (by decide) (by decide) 2
    (by decide) (by decide)

/-- C8: `step` writes only the interior cells of `next`: the `const` input
buffer `cur` is left unchanged by the call, the output buffer keeps its
length, and every cell of `next` outside `HALO ≤ j < ext_n - HALO` — in
particular the two ghost cells, indices `0` and `ext_n - 1` — is left exactly
as it was. -/
theorem C8_step_frame :
    (∀ cur next : List Int, (stepCall (cur, next)).1 = cur) ∧
    (∀ cur next : List Int, (step cur next).length = next.length) ∧
    (∀ (cur next : List Int) (j : Nat), j < HALO ∨ cur.length - HALO ≤ j →
      (step cur next)[j]? = next[j]?) := by
  refine ⟨fun _ _ => rfl, fun cur next => step_length cur next, ?_⟩
  intro cur next j hj
  unfold step
  apply stepLoop_getElem?_frame
  unfold HALO at *
  omega

/-- Witness for C8: with `ext_n = 5`, the right ghost cell (index 4) of the
output buffer keeps its previous value. -/
theorem C8_step_frame_witness :
    (step [0,1,0,1,0] [7,7,7,7,7])[4]? = ([7,7,7,7,7] : List Int)[4]? :=
  C8_step_frame.2.2 [0,1,0,1,0] [7,7,7,7,7] 4 (Or.inr (by decide))

/-! ## Boolean-valuedness -/

theorem cOf_eq_zero_or_one (b : Bool) : cOf b = 0 ∨ cOf b = 1 := by
  cases b
  · left; rfl
  · right; rfl

theorem rule30expr_eq_zero_or_one (e c w : Int) :
    rule30expr e c w = 0 ∨ rule30expr e c w = 1 := by
  unfold rule30expr
  exact cOf_eq_zero_or_one _

theorem getD_eq_zero_or_one {b : List Int} (h : Bool01 b) (i : Nat) :
    b.getD i 0 = 0 ∨ b.getD i 0 = 1 := by
  rw [List.getD_eq_getElem?_getD]
  cases hb : b[i]? with
  | none => left; rfl
  | some y => simpa using h y (List.getElem?_mem hb)

theorem bool01_set {b : List Int} {v : Int} (h : Bool01 b) (hv : v = 0 ∨ v = 1)
    (i : Nat) : Bool01 (b.set i v) := by
  intro x hx
  rcases List.mem_or_eq_of_mem_set hx with hx' | rfl
  · exact h x hx'
  · exact hv

theorem stepLoop_bool01 (cur : List Int) :
    ∀ fuel next i, Bool01 next → Bool01 (stepLoop cur next i fuel) := by
  intro fuel
  induction fuel with
  | zero => intro next i h; exact h
  | succ f ih =>
      intro next i h
      rw [stepLoop]
      exact ih _ _ (bool01_set h (rule30expr_eq_zero_or_one _ _ _) i)

theorem step_bool01 (cur : List Int) {next : List Int} (h : Bool01 next) :
    Bool01 (step cur next) :=
  stepLoop_bool01 cur _ next HALO h

theorem wrap_bool01 {b : List Int} (h : Bool01 b) : Bool01 (wrap b) := by
  intro x hx
  simp only [wrap] at hx
  rcases List.mem_or_eq_of_mem_set hx with hx1 | rfl
  · rcases List.mem_or_eq_of_mem_set hx1 with hx2 | rfl
    · exact h x hx2
    · exact getD_eq_zero_or_one h _
  · exact getD_eq_zero_or_one (bool01_set h (getD_eq_zero_or_one h _) 0) _

theorem generation_bool01 {st : List Int × List Int}
    (h1 : Bool01 st.1) (h2 : Bool01 st.2) :
    Bool01 (generation st).1 ∧ Bool01 (generation st).2 :=
  ⟨step_bool01 _ h2, wrap_bool01 h1⟩

theorem iterate_generation_bool01 :
    ∀ (k : Nat) (st : List Int × List Int), Bool01 st.1 → Bool01 st.2 →
      Bool01 ((generation^[k] st).1) ∧ Bool01 ((generation^[k] st).2) := by
  intro k
  induction k with
  | zero => intro st h1 h2; exact ⟨h1, h2⟩
  | succ n ih =>
      intro st h1 h2
      rw [Function.iterate_succ_apply]
      exact ih _ (generation_bool01 h1 h2).1 (generation_bool01 h1 h2).2

theorem distribute_bool01 {g : List Int} (h : Bool01 g) (W : Nat) :
    ∀ b ∈ distribute g W, Bool01 b := by
  intro b hb x hx
  simp only [distribute, List.mem_map] at hb
  obtain ⟨i, _, rfl⟩ := hb
  rcases List.mem_cons.mp hx with rfl | hx1
  · left; rfl
  · rcases List.mem_append.mp hx1 with hx2 | hx3
    · exact h x (List.mem_of_mem_drop (List.mem_of_mem_take hx2))
    · rcases List.mem_singleton.mp hx3 with rfl
      left; rfl

theorem gather_bool01 {bufs : List (List Int)} (h : ∀ b ∈ bufs, Bool01 b) :
    Bool01 (gather bufs) := by
  intro x hx
  simp only [gather, List.mem_flatten, List.mem_map] at hx
  obtain ⟨l, ⟨b, hb, rfl⟩, hxl⟩ := hx
  exact h b hb x (List.mem_of_mem_drop (List.mem_of_mem_take hxl))

/-- C9: every interior cell written by `step` is 0 or 1, for arbitrary
`cell_t` input values; and Boolean-valuedness of whole buffers is an
invariant preserved by the W = 1 ghost wrap, by every number of generations
of the main loop, and by `distribute` and `gather`. -/
theorem C9_boolean_invariant :
    (∀ (cur next : List Int), next.length = cur.length →
      ∀ i, HALO ≤ i → i + HALO < cur.length →
        (step cur next).getD i 0 = 0 ∨ (step cur next).getD i 0 = 1) ∧
    (∀ b : List Int, Bool01 b → Bool01 (wrap b)) ∧
    (∀ (st : List Int × List Int), Bool01 st.1 → Bool01 st.2 →
      ∀ k, Bool01 ((generation^[k] st).1)) ∧
    (∀ (g : List Int) (W : Nat), Bool01 g → ∀ b ∈ distribute g W, Bool01 b) ∧
    (∀ bufs : List (List Int), (∀ b ∈ bufs, Bool01 b) → Bool01 (gather bufs)) := by
  refine ⟨?_, fun b hb => wrap_bool01 hb,
    fun st h1 h2 k => (iterate_generation_bool01 k st h1 h2).1,
    fun g W hg => distribute_bool01 hg W, fun bufs h => gather_bool01 h⟩
  intro cur next hlen i h1 h2
  rw [step_getD_interior cur next hlen i h1 h2]
  exact rule30expr_eq_zero_or_one _ _ _

/-- Witness for C9: the cell `step` writes at interior index 1 is 0 or 1 even
for the non-Boolean input buffer `[5,-3,2]`. -/
theorem C9_boolean_invariant_witness :
    (step [5,-3,2] [9,9,9]).getD 1 0 = 0 ∨ (step [5,-3,2] [9,9,9]).getD 1 0 = 1 :=
  C9_boolean_invariant.1 [5,-3,2] [9,9,9] (by decide) 1 (by decide) (by decide)

/-! ## The W = 1 halo exchange -/

theorem wrap_length (b : List Int) : (wrap b).length = b.length := by
  simp [wrap]

theorem wrap_getElem?_left (b : List Int) (h : 3 ≤ b.length) :
    (wrap b)[0]? = some (b.getD (b.length - 2*HALO) 0) := by
  simp only [wrap, HALO]
  rw [List.getElem?_set_ne (by omega), List.getElem?_set_self (by simpa using by omega)]

theorem wrap_getElem?_right (b : List Int) (h : 3 ≤ b.length) :
    (wrap b)[b.length - HALO]? = some (b.getD HALO 0) := by
  simp only [wrap, HALO]
  rw [List.getElem?_set_self (by simpa using by omega)]
  rw [List.getD_eq_getElem?_getD, List.getElem?_set_ne (by omega)]
  simp

theorem wrap_getElem?_interior (b : List Int) (j : Nat) (h1 : HALO ≤ j)
    (h2 : j + HALO < b.length) : (wrap b)[j]? = b[j]? := by
  simp only [HALO] at h1 h2
  simp only [wrap, HALO]
  rw [List.getElem?_set_ne (by omega), List.getElem?_set_ne (by omega)]

/-- C5: the W = 1 halo exchange of the main loop copies the buffer's own
rightmost interior cell into the left ghost slot (index 0) and its own
leftmost interior cell into the right ghost slot (index `local_size + 1 =
ext_width - HALO`), reproducing periodic/toroidal boundary conditions, and
modifies no other cell. -/
theorem C5_wrap_periodic (b : List Int) (h : 3 ≤ b.length) :
    (wrap b).length = b.length ∧
    (wrap b).getD 0 0 = b.getD (b.length - 2*HALO) 0 ∧
    (wrap b).getD (b.length - HALO) 0 = b.getD HALO 0 ∧
    (∀ j, HALO ≤ j → j + HALO < b.length → (wrap b)[j]? = b[j]?) := by
  refine ⟨wrap_length b, ?_, ?_, fun j h1 h2 => wrap_getElem?_interior b j h1 h2⟩
  · rw [List.getD_eq_getElem?_getD, wrap_getElem?_left b h]
    rfl
  · rw [List.getD_eq_getElem?_getD, wrap_getElem?_right b h]
    rfl

/-- Witness for C5 on the buffer `[9, 4, 5, 6, 9]` (interior `[4,5,6]`). -/
theorem C5_wrap_periodic_witness :
    (wrap [9,4,5,6,9]).length = ([9,4,5,6,9] : List Int).length ∧
    (wrap [9,4,5,6,9]).getD 0 0 = ([9,4,5,6,9] : List Int).getD 3 0 ∧
    (wrap [9,4,5,6,9]).getD 4 0 = ([9,4,5,6,9] : List Int).getD 1 0 ∧
    (∀ j, HALO ≤ j → j + HALO < ([9,4,5,6,9] : List Int).length →
      (wrap [9,4,5,6,9])[j]? = ([9,4,5,6,9] : List Int)[j]?) :=
  C5_wrap_periodic [9,4,5,6,9] (by decide)

/-! ## Domain initialization -/

/-- C10: `init_domain` zeroes the whole buffer and then sets exactly the cell
at index `ext_n / 2` to 1; for `ext_n ≥ 3` that index is an interior
(non-ghost) index.  Consequently, for even domain width `N ≥ 2` (so `ext_n =
N + 2*HALO`), the initial global row — the interior the snapshots see — has
exactly one live cell, at global index `N / 2`. -/
theorem C10_init_domain :
    (∀ ext_n : Nat, 3 ≤ ext_n →
      (init_domain ext_n).length = ext_n ∧
      (init_domain ext_n).getD (ext_n / 2) 0 = 1 ∧
      (∀ j, j < ext_n → j ≠ ext_n / 2 → (init_domain ext_n).getD j 0 = 0) ∧
      HALO ≤ ext_n / 2 ∧ ext_n / 2 + HALO < ext_n) ∧
    (∀ N : Nat, 2 ∣ N → 2 ≤ N →
      (dump_state (init_domain (N + 2*HALO))).length = N ∧
      (∀ j, j < N → (dump_state (init_domain (N + 2*HALO))).getD j 0 =
        if j = N / 2 then 1 else 0)) := by
  constructor
  · intro ext_n h
    refine ⟨by simp [init_domain], ?_, ?_, by simp only [HALO]; omega,
      by simp only [HALO]; omega⟩
    · rw [List.getD_eq_getElem?_getD, init_domain,
        List.getElem?_set_self (by simpa using by omega)]
      rfl
    · intro j hj hne
      rw [List.getD_eq_getElem?_getD, init_domain, List.getElem?_set_ne (Ne.symm hne),
        List.getElem?_replicate]
      simp [hj]
  · intro N hdvd hN
    have hlen : (init_domain (N + 2*HALO)).length = N + 2 := by
      simp [init_domain, HALO]
    constructor
    · rw [dump_state, List.length_take, List.length_drop, hlen]
      simp only [HALO]
      omega
    · intro j hj
      have hidx : (N + 2*HALO) / 2 = N / 2 + 1 := by
        obtain ⟨m, rfl⟩ := hdvd
        simp only [HALO]
        omega
      rw [List.getD_eq_getElem?_getD]
      simp only [dump_state, hlen]
      have htk : j < N + 2 - 2*HALO := by simp only [HALO]; omega
      rw [List.getElem?_take_of_lt htk, List.getElem?_drop]
      simp only [init_domain]
      by_cases hje : HALO + j = (N + 2*HALO) / 2
      · have hj2 : j = N / 2 := by
          rw [hidx] at hje
          simp only [HALO] at hje
          omega
        rw [← hje]
        rw [List.getElem?_set_self (by simp only [List.length_replicate, HALO] at *; omega)]
        simp [hj2]
      · have hj2 : j ≠ N / 2 := by
          rw [hidx] at hje
          simp only [HALO] at hje
          omega
        rw [List.getElem?_set_ne (fun hc => hje hc.symm), List.getElem?_replicate]
        have hin : HALO + j < N + 2*HALO := by simp only [HALO]; omega
        simp [hin, hj2]

/-- Witness for C10 at `ext_n = 6`, `N = 4`. -/
theorem C10_init_domain_witness :
    ((init_domain 6).length = 6 ∧
      (init_domain 6).getD (6 / 2) 0 = 1 ∧
      (∀ j, j < 6 → j ≠ 6 / 2 → (init_domain 6).getD j 0 = 0) ∧
      HALO ≤ 6 / 2 ∧ 6 / 2 + HALO < 6) ∧
    ((dump_state (init_domain (4 + 2*HALO))).length = 4 ∧
      (∀ j, j < 4 → (dump_state (init_domain (4 + 2*HALO))).getD j 0 =
        if j = 4 / 2 then 1 else 0)) :=
  ⟨C10_init_domain.1 6 (by decide), C10_init_domain.2 4 (by decide) (by decide)⟩

/-! ## Init-time validation -/

/-- C6: the `width % comm_sz` check of `main` rejects every `(N, W)` with `W`
not dividing `N` — in particular every `W > N` with `N ≥ 1` — with an
immediate abort that produces no buffers, no snapshots and no generations
(the error carries an empty run); and when `W` divides `N` the validation
passes and the run proceeds. -/
theorem C6_invalid_partition (N W G : Nat) :
    (¬ (W ∣ N) → runMain N W G = Except.error "InvalidPartition") ∧
    (1 ≤ N → N < W → runMain N W G = Except.error "InvalidPartition") ∧
    (W ∣ N → runMain N W G =
      Except.ok (runSnaps (init_domain (N + 2*HALO), List.replicate (N + 2*HALO) 0) G)) := by
  refine ⟨?_, ?_, ?_⟩
  · intro hnd
    have : N % W ≠ 0 := fun hc => hnd (Nat.dvd_iff_mod_eq_zero.mpr hc)
    simp [runMain, this]
  · intro hN hlt
    have : N % W ≠ 0 := by rw [Nat.mod_eq_of_lt hlt]; omega
    simp [runMain, this]
  · intro hd
    have : N % W = 0 := Nat.dvd_iff_mod_eq_zero.mp hd
    simp [runMain, this]

/-- Witness for C6: `N = 5`, `W = 3` aborts with `InvalidPartition`. -/
theorem C6_invalid_partition_witness :
    runMain 5 3 2 = Except.error "InvalidPartition" :=
  (C6_invalid_partition 5 3 2).1 (by decide)

/-! ## The balanced partition -/

theorem pstart_zero (N W : Nat) : pstart N W 0 = 0 := by
  simp [pstart]

theorem pend_last (N W : Nat) (hW : 1 ≤ W) : pend N W (W-1) = N := by
  unfold pend
  have h : W - 1 + 1 = W := by omega
  rw [h, Nat.mul_div_cancel N hW]

theorem pstart_mono (N W : Nat) {i j : Nat} (h : i ≤ j) :
    pstart N W i ≤ pstart N W j :=
  Nat.div_le_div_right (Nat.mul_le_mul le_rfl h)

theorem psize_eq (N W i : Nat) (hW : 0 < W) :
    psize N W i = N / W ∨ psize N W i = N / W + 1 := by
  unfold psize pend pstart
  have h : N * (i+1) = N * i + N := by ring
  rw [h, Nat.add_div hW]
  split
  · right
    rw [Nat.add_assoc, Nat.add_sub_cancel_left]
  · left
    rw [Nat.add_zero, Nat.add_sub_cancel_left]

theorem mem_block_iff (N W i j : Nat) (hW : 0 < W) :
    (pstart N W i ≤ j ∧ j < pend N W i) ↔
      N * i < (j+1) * W ∧ (j+1) * W ≤ N * (i+1) := by
  unfold pstart pend
  constructor
  · rintro ⟨h1, h2⟩
    exact ⟨(Nat.div_lt_iff_lt_mul hW).mp (Nat.lt_succ_of_le h1),
           (Nat.le_div_iff_mul_le hW).mp (Nat.succ_le_of_lt h2)⟩
  · rintro ⟨h1, h2⟩
    exact ⟨Nat.lt_succ_iff.mp ((Nat.div_lt_iff_lt_mul hW).mpr h1),
           Nat.lt_of_succ_le ((Nat.le_div_iff_mul_le hW).mpr h2)⟩

theorem cover_exists (N W j : Nat) (hN : 1 ≤ N) (hW : 1 ≤ W) (hj : j < N) :
    ∃ i, i < W ∧ pstart N W i ≤ j ∧ j < pend N W i := by
  refine ⟨((j+1)*W - 1) / N, ?_, ?_⟩
  · have hx : (j+1)*W - 1 < W * N := by
      have h1 : (j+1)*W ≤ N*W := Nat.mul_le_mul (by omega) le_rfl
      have h2 : 0 < (j+1)*W := Nat.mul_pos (by omega) hW
      have h3 : N*W = W*N := by ring
      omega
    exact (Nat.div_lt_iff_lt_mul hN).mpr hx
  · rw [mem_block_iff N W _ j hW]
    have hA : N * (((j+1)*W - 1) / N) ≤ (j+1)*W - 1 := by
      rw [Nat.mul_comm]
      exact Nat.div_mul_le_self _ N
    have h2 := Nat.div_add_mod ((j+1)*W - 1) N
    have h3 := Nat.mod_lt ((j+1)*W - 1) hN
    have h4 : N * (((j+1)*W - 1) / N + 1) = N * (((j+1)*W - 1) / N) + N := by ring
    have h5 : 0 < (j+1)*W := Nat.mul_pos (by omega) hW
    omega

/-- C3: for every `N ≥ 1` and `1 ≤ W ≤ N`, the partition `start(i) = i*N/W`,
`end(i) = start(i+1)` starts at 0, ends at `N` (`end(W-1) = N`), is
contiguous, monotone, has every block of size `N/W` or `N/W + 1`, and covers
`[0,N)` exactly once (every global index lies in exactly one block). -/
theorem C3_partition (N W : Nat) (hN : 1 ≤ N) (hW : 1 ≤ W) (_hWN : W ≤ N) :
    pstart N W 0 = 0 ∧
    pend N W (W-1) = N ∧
    (∀ i, pend N W i = pstart N W (i+1)) ∧
    (∀ i, pstart N W i ≤ pend N W i) ∧
    (∀ i, psize N W i = N / W ∨ psize N W i = N / W + 1) ∧
    (∀ j, j < N → ∃! i, i < W ∧ pstart N W i ≤ j ∧ j < pend N W i) := by
  refine ⟨pstart_zero N W, pend_last N W hW, fun i => rfl,
    fun i => pstart_mono N W (Nat.le_succ i), fun i => psize_eq N W i hW, ?_⟩
  intro j hj
  obtain ⟨i₀, hi₀W, hi₀⟩ := cover_exists N W j hN hW hj
  refine ⟨i₀, ⟨hi₀W, hi₀⟩, ?_⟩
  rintro y ⟨hyW, hy⟩
  obtain ⟨ha1, ha2⟩ := (mem_block_iff N W i₀ j hW).mp hi₀
  obtain ⟨hb1, hb2⟩ := (mem_block_iff N W y j hW).mp hy
  by_contra hne
  rcases Nat.lt_or_ge y i₀ with hlt | hge
  · have h1 : N * (y+1) ≤ N * i₀ := Nat.mul_le_mul le_rfl hlt
    omega
  · have hgt : i₀ + 1 ≤ y := by omega
    have h1 : N * (i₀+1) ≤ N * y := Nat.mul_le_mul le_rfl hgt
    omega

/-- Witness for C3 at `N = 5`, `W = 2` (blocks `[0,2)` and `[2,5)`). -/
theorem C3_partition_witness :
    pstart 5 2 0 = 0 ∧
    pend 5 2 (2-1) = 5 ∧
    (∀ i, pend 5 2 i = pstart 5 2 (i+1)) ∧
    (∀ i, pstart 5 2 i ≤ pend 5 2 i) ∧
    (∀ i, psize 5 2 i = 5 / 2 ∨ psize 5 2 i = 5 / 2 + 1) ∧
    (∀ j, j < 5 → ∃! i, i < 2 ∧ pstart 5 2 i ≤ j ∧ j < pend 5 2 i) :=
  C3_partition 5 2 (by decide) (by decide) (by decide)

/-! ## Distribute / gather round trip -/

theorem pend_eq_pstart_succ (N W i : Nat) : pend N W i = pstart N W (i+1) := rfl

theorem dump_state_ghost (xs : List Int) (a b : Int) :
    dump_state (a :: (xs ++ [b])) = xs := by
  unfold dump_state HALO
  simp only [List.length_cons, List.length_append, List.drop_succ_cons, List.drop_zero]
  exact List.take_left' (by simp)

theorem flatten_slices (g : List Int) (c : Nat → Nat) (hc0 : c 0 = 0)
    (hmono : ∀ i, c i ≤ c (i+1)) :
    ∀ W, ((List.range W).map (fun i => (g.drop (c i)).take (c (i+1) - c i))).flatten
      = g.take (c W) := by
  intro W
  induction W with
  | zero => simp [hc0]
  | succ n ih =>
      rw [List.range_succ, List.map_append, List.flatten_append, ih]
      simp only [List.map_cons, List.map_nil, List.flatten_cons, List.flatten_nil,
        List.append_nil]
      have h : c (n+1) = c n + (c (n+1) - c n) := by
        have := hmono n
        omega
      conv_rhs => rw [h, List.take_add]

/-- C4: gathering the distributed buffers reconstructs the global row
exactly: for every global state `g` and worker count `W ≥ 1`,
`gather (distribute g W) = g` (distribute copies `g[start_i .. end_i)` into
each interior, gather concatenates the interiors in worker order). -/
theorem C4_gather_distribute (g : List Int) (W : Nat) (hW : 1 ≤ W) :
    gather (distribute g W) = g := by
  unfold gather distribute
  rw [List.map_map]
  have hmap : ∀ i ∈ List.range W,
      (dump_state ∘ fun i =>
        (0:Int) :: ((g.drop (pstart g.length W i)).take (psize g.length W i) ++ [(0:Int)])) i
      = (g.drop (pstart g.length W i)).take (pstart g.length W (i+1) - pstart g.length W i) :=
    fun i _ => dump_state_ghost _ _ _
  rw [List.map_congr_left hmap,
    flatten_slices g (fun i => pstart g.length W i) (pstart_zero _ _)
      (fun i => pstart_mono _ _ (Nat.le_succ i)) W]
  have hend : pstart g.length W W = g.length := by
    unfold pstart
    exact Nat.mul_div_cancel _ hW
  rw [hend, List.take_length]

/-- Witness for C4: `g = [1,2,3,4,5]`, `W = 2`. -/
theorem C4_gather_distribute_witness :
    gather (distribute [1,2,3,4,5] 2) = [1,2,3,4,5] :=
  C4_gather_distribute [1,2,3,4,5] 2 (by decide)

/-! ## One generation of the W = 1 loop implements the periodic automaton -/

theorem dump_state_length (b : List Int) :
    (dump_state b).length = b.length - 2*HALO := by
  unfold dump_state HALO
  rw [List.length_take, List.length_drop]
  omega

theorem dump_state_getElem? (b : List Int) (t : Nat) (h : t < b.length - 2*HALO) :
    (dump_state b)[t]? = b[t + HALO]? := by
  unfold dump_state
  rw [List.getElem?_take_of_lt h, List.getElem?_drop, Nat.add_comm]

theorem dump_state_getD (b : List Int) (t : Nat) (h : t < b.length - 2*HALO) :
    (dump_state b).getD t 0 = b.getD (t + HALO) 0 := by
  rw [List.getD_eq_getElem?_getD, List.getD_eq_getElem?_getD, dump_state_getElem? b t h]

theorem wrap_getD_left (b : List Int) (h : 3 ≤ b.length) :
    (wrap b).getD 0 0 = b.getD (b.length - 2*HALO) 0 := by
  rw [List.getD_eq_getElem?_getD, wrap_getElem?_left b h]
  rfl

theorem wrap_getD_right (b : List Int) (h : 3 ≤ b.length) :
    (wrap b).getD (b.length - HALO) 0 = b.getD HALO 0 := by
  rw [List.getD_eq_getElem?_getD, wrap_getElem?_right b h]
  rfl

theorem wrap_getD_interior (b : List Int) (j : Nat) (h1 : HALO ≤ j)
    (h2 : j + HALO < b.length) : (wrap b).getD j 0 = b.getD j 0 := by
  rw [List.getD_eq_getElem?_getD, List.getD_eq_getElem?_getD,
    wrap_getElem?_interior b j h1 h2]

theorem globalGen_length (g : List Int) : (globalGen g).length = g.length := by
  simp [globalGen]

theorem globalGen_getElem? (g : List Int) (t : Nat) (h : t < g.length) :
    (globalGen g)[t]? =
      some (rule30expr (g.getD ((t + g.length - 1) % g.length) 0) (g.getD t 0)
        (g.getD ((t + 1) % g.length) 0)) := by
  unfold globalGen
  rw [List.getElem?_map, List.getElem?_range h]
  rfl

theorem generation_interior (cur next : List Int)
    (hlen : next.length = cur.length) (h3 : 3 ≤ cur.length) :
    dump_state (generation (cur, next)).1 = globalGen (dump_state cur) := by
  have hwl : (wrap cur).length = cur.length := wrap_length cur
  have hsl : (step (wrap cur) next).length = next.length := step_length _ _
  have hdl : (dump_state cur).length = cur.length - 2*HALO := dump_state_length cur
  apply List.ext_getElem?
  intro t
  by_cases ht : t < cur.length - 2*HALO
  · have hN : 1 ≤ cur.length - 2*HALO := by simp only [HALO]; omega
    rw [dump_state_getElem? _ t (by rw [show (generation (cur, next)).1 = step (wrap cur) next from rfl, hsl, hlen]; exact ht)]
    rw [show (generation (cur, next)).1 = step (wrap cur) next from rfl]
    rw [step_getElem?_interior (wrap cur) next (by rw [hwl]; exact hlen) (t + HALO)
      (by simp only [HALO]; omega) (by rw [hwl]; simp only [HALO] at *; omega)]
    rw [globalGen_getElem? _ t (by rw [hdl]; exact ht)]
    rw [hdl]
    congr 1
    -- the three neighborhood cells agree
    have hb : (wrap cur).getD (t + HALO) 0 = (dump_state cur).getD t 0 := by
      rw [wrap_getD_interior cur (t + HALO) (by simp only [HALO]; omega)
        (by simp only [HALO] at *; omega), dump_state_getD cur t ht]
    have ha : (wrap cur).getD (t + HALO - 1) 0 =
        (dump_state cur).getD ((t + (cur.length - 2*HALO) - 1) % (cur.length - 2*HALO)) 0 := by
      rcases Nat.eq_zero_or_pos t with rfl | htpos
      · have hmod : (0 + (cur.length - 2*HALO) - 1) % (cur.length - 2*HALO)
            = cur.length - 2*HALO - 1 := by
          rw [Nat.zero_add]
          exact Nat.mod_eq_of_lt (by omega)
        rw [hmod, dump_state_getD cur _ (by omega)]
        simp only [HALO]
        have h01 : 0 + 1 - 1 = 0 := rfl
        rw [h01, wrap_getD_left cur h3]
        simp only [HALO]
        congr 1
        omega
      · have hmod : (t + (cur.length - 2*HALO) - 1) % (cur.length - 2*HALO) = t - 1 := by
          have harith : t + (cur.length - 2*HALO) - 1 = (t - 1) + (cur.length - 2*HALO) := by
            omega
          rw [harith, Nat.add_mod_right]
          exact Nat.mod_eq_of_lt (by omega)
        rw [hmod, dump_state_getD cur _ (by omega)]
        rw [wrap_getD_interior cur (t + HALO - 1) (by simp only [HALO]; omega)
          (by simp only [HALO] at *; omega)]
        congr 1
        simp only [HALO]
        omega
    have hc : (wrap cur).getD (t + HALO + 1) 0 =
        (dump_state cur).getD ((t + 1) % (cur.length - 2*HALO)) 0 := by
      by_cases hlast : t + 1 = cur.length - 2*HALO
      · have hmod : (t + 1) % (cur.length - 2*HALO) = 0 := by
          rw [hlast, Nat.mod_self]
        rw [hmod, dump_state_getD cur 0 (by omega)]
        have hidx : t + HALO + 1 = cur.length - HALO := by simp only [HALO] at *; omega
        rw [hidx, wrap_getD_right cur h3]
        rw [Nat.zero_add]
      · have hmod : (t + 1) % (cur.length - 2*HALO) = t + 1 :=
          Nat.mod_eq_of_lt (by omega)
        rw [hmod, dump_state_getD cur (t+1) (by omega)]
        rw [wrap_getD_interior cur (t + HALO + 1) (by simp only [HALO]; omega)
          (by simp only [HALO] at *; omega)]
        have harg : t + HALO + 1 = t + 1 + HALO := by simp only [HALO]
        rw [harg]
    rw [ha, hb, hc]
  · have h1 : (dump_state (generation (cur, next)).1)[t]? = none := by
      apply List.getElem?_eq_none
      rw [show (generation (cur, next)).1 = step (wrap cur) next from rfl] at *
      rw [dump_state_length, hsl, hlen]
      omega
    have h2 : (globalGen (dump_state cur))[t]? = none := by
      apply List.getElem?_eq_none
      rw [globalGen_length, hdl]
      omega
    rw [h1, h2]

theorem runSnaps_spec :
    ∀ (G : Nat) (cur next : List Int), next.length = cur.length → 3 ≤ cur.length →
      (runSnaps (cur, next) G).length = G ∧
      (∀ s ∈ runSnaps (cur, next) G, s.length = cur.length - 2*HALO) ∧
      (∀ k, k < G →
        (runSnaps (cur, next) G).getD k [] = globalGen^[k] (dump_state cur)) := by
  intro G
  induction G with
  | zero =>
      intro cur next _ _
      exact ⟨rfl, fun s hs => absurd hs (List.not_mem_nil s), fun k hk => absurd hk (by omega)⟩
  | succ n ih =>
      intro cur next hlen h3
      have hg1 : (generation (cur, next)).1 = step (wrap cur) next := rfl
      have hg2 : (generation (cur, next)).2 = wrap cur := rfl
      have hlen1 : (generation (cur, next)).1.length = cur.length := by
        rw [hg1, step_length, hlen]
      have hlen2 : (generation (cur, next)).2.length = cur.length := by
        rw [hg2, wrap_length]
      obtain ⟨ihl, ihm, ihk⟩ := ih (generation (cur, next)).1 (generation (cur, next)).2
        (by rw [hlen1, hlen2]) (by rw [hlen1]; exact h3)
      refine ⟨?_, ?_, ?_⟩
      · rw [runSnaps, List.length_cons, ihl]
      · intro s hs
        rw [runSnaps] at hs
        rcases List.mem_cons.mp hs with rfl | hs'
        · exact dump_state_length cur
        · rw [← hlen1]
          exact ihm s hs'
      · intro k hk
        rw [runSnaps]
        cases k with
        | zero => rfl
        | succ m =>
            have hstep : dump_state (generation (cur, next)).1
                = globalGen (dump_state cur) := generation_interior cur next hlen h3
            rw [List.getD_cons_succ, ihk m (by omega), hstep,
              ← Function.iterate_succ_apply]

/-- C7: a run of `G` generations records exactly `G` snapshots, each being
the `N = ext_width - 2*HALO` interior cells (ghosts excluded) left to right;
the snapshot of each generation is dumped before that generation's step, so
the `k`-th snapshot (0-based `k`, i.e. the `(k+1)`-th) is the initial global
row advanced by `k` generations of the periodic automaton. -/
theorem C7_snapshots (cur next : List Int) (G : Nat)
    (hlen : next.length = cur.length) (h3 : 3 ≤ cur.length) :
    (runSnaps (cur, next) G).length = G ∧
    (∀ s ∈ runSnaps (cur, next) G, s.length = cur.length - 2*HALO) ∧
    (∀ k, k < G →
      (runSnaps (cur, next) G).getD k [] = globalGen^[k] (dump_state cur)) :=
  runSnaps_spec G cur next hlen h3

/-- Witness for C7: width 3 (`ext_width = 5`), 2 generations. -/
theorem C7_snapshots_witness :
    (runSnaps ([0,0,1,0,0], [0,0,0,0,0]) 2).length = 2 ∧
    (∀ s ∈ runSnaps ([0,0,1,0,0], [0,0,0,0,0]) 2,
      s.length = ([0,0,1,0,0] : List Int).length - 2*HALO) ∧
    (∀ k, k < 2 → (runSnaps ([0,0,1,0,0], [0,0,0,0,0]) 2).getD k []
      = globalGen^[k] (dump_state [0,0,1,0,0])) :=
  C7_snapshots [0,0,1,0,0] [0,0,0,0,0] 2 (by decide) (by decide)

/-! ## End-to-end scenario: N = 8, seed at global index 4, one generation -/

/-- C2: with `N = 8`, the seed cell at global index 4 and periodic
boundaries, one Rule-30 generation yields `[0,0,0,1,1,1,0,0]`; the 2-worker
distributed run (partitions `[0,4)` and `[4,8)`, ring halo exchange) and the
single-worker run of the source's sequential path produce exactly that same
8-cell row — distributed and non-distributed execution are bit-identical. -/
theorem C2_distributed_equals_sequential :
    globalGen [0,0,0,0,1,0,0,0] = [0,0,0,1,1,1,0,0] ∧
    distributedGen [0,0,0,0,1,0,0,0] 2 = [0,0,0,1,1,1,0,0] ∧
    dump_state (generation ((0:Int) :: ([0,0,0,0,1,0,0,0] ++ [0]),
      List.replicate 10 0)).1 = [0,0,0,1,1,1,0,0] ∧
    distributedGen [0,0,0,0,1,0,0,0] 2 =
      dump_state (generation ((0:Int) :: ([0,0,0,0,1,0,0,0] ++ [0]),
        List.replicate 10 0)).1 :=
  ⟨by decide, by decide, by decide, by decide⟩

end HPC
